import Mathlib

/-!
Shallow embedding of the configuration resolution engine of the `sheld`
repository (`src/config/mod.rs` and `src/config/loader.rs`), together with
proofs settling the frozen claims about it.

Rust `HashMap`s are modelled as association lists whose keys are unique
(the `HashMap` invariant); insertion replaces the binding in place, and
extending with another map folds insertion over its entries, so lookup
semantics coincide with the Rust maps.  Filesystem effects are passed in
explicitly as function parameters.
-/

namespace Sheld

/-- `EntryType` from `src/config/mod.rs`: `Command` or `Model`; default `Command`. -/
inductive EntryType where
  | command
  | model
deriving DecidableEq, Repr

/-- Model of `HashMap<String, String>` used for the `env` field. -/
abbrev Env := List (String × String)

/-- `HashMap::insert` on the association-list model: replace the first binding
of the key in place, or append a new binding when absent. -/
def envInsert : Env → String → String → Env
  | [], k, v => [(k, v)]
  | (k', v') :: rest, k, v =>
    if k' = k then (k, v) :: rest else (k', v') :: envInsert rest k v

/-- `HashMap::extend`: insert every binding of `child` into `parent`
(child wins on key collisions). -/
def envExtend (parent child : Env) : Env :=
  child.foldl (fun acc kv => envInsert acc kv.1 kv.2) parent

/-- `HashMap::get` on the model: first binding of the key. -/
def envLookup : Env → String → Option String
  | [], _ => none
  | (k', v) :: rest, k => if k' = k then some v else envLookup rest k

/-- Lookup where the last binding of a key wins (the value `HashMap::extend`
would keep when fed the list in order). -/
def envLookupLast (e : Env) (k : String) : Option String :=
  envLookup e.reverse k

/-- Successive overlay of a list of env maps: a later map in the list
overrides an earlier map's value for the same key. -/
def overlayLookup (envs : List Env) (k : String) : Option String :=
  envs.foldl (fun acc e => Option.or (envLookupLast e k) acc) none

/-- The `Entry` struct from `src/config/mod.rs` (field `extends` is spelled
`extends_` because `extends` is a Lean keyword). -/
structure Entry where
  entry_type : EntryType
  enabled : Bool
  override_parent : Bool
  extends_ : List String
  share : List String
  bind : List String
  ro_bind : List String
  dev_bind : List String
  bind_try : List String
  ro_bind_try : List String
  dev_bind_try : List String
  tmpfs : List String
  chdir : Option String
  die_with_parent : Bool
  new_session : Bool
  cap : List String
  env : Env
  unset_env : List String
deriving DecidableEq, Repr

/-- The serde defaults of `Entry`: `type: command`, `enabled: true`,
`override: false`, `die_with_parent: false`, `new_session: false`,
all collections empty, `chdir` absent. -/
def default_entry : Entry where
  entry_type := EntryType.command
  enabled := true
  override_parent := false
  extends_ := []
  share := []
  bind := []
  ro_bind := []
  dev_bind := []
  bind_try := []
  ro_bind_try := []
  dev_bind_try := []
  tmpfs := []
  chdir := none
  die_with_parent := false
  new_session := false
  cap := []
  env := []
  unset_env := []

/-- The seen-set filter inside `deduplicate_vec`: keep an element iff it has
not been seen before, accumulating the seen set. -/
def dedupFrom (seen : List String) : List String → List String
  | [] => []
  | x :: xs => if x ∈ seen then dedupFrom seen xs else x :: dedupFrom (x :: seen) xs

/-- `deduplicate_vec` from `src/config/mod.rs`: deduplicate a vector,
preserving order (first occurrence kept). -/
def deduplicate_vec (vec : List String) : List String :=
  dedupFrom [] vec

/-- The per-field array-merge pattern repeated in `Entry::deep_merge`:
`merged = parent ++ child`, then `if child.is_empty { parent } else
{ deduplicate_vec(merged) }`. -/
def mergeArray (parent child : List String) : List String :=
  if child.isEmpty then parent else deduplicate_vec (parent ++ child)

/-- `Entry::deep_merge` from `src/config/mod.rs`: arrays parent-first then
deduplicated (empty child array preserves parent), env overlaid child-wins,
scalar fields from the child, `chdir` child-or-parent. -/
def Entry.deep_merge (parent child : Entry) : Entry where
  entry_type := child.entry_type
  enabled := child.enabled
  override_parent := child.override_parent
  extends_ := child.extends_
  share := mergeArray parent.share child.share
  bind := mergeArray parent.bind child.bind
  ro_bind := mergeArray parent.ro_bind child.ro_bind
  dev_bind := mergeArray parent.dev_bind child.dev_bind
  bind_try := mergeArray parent.bind_try child.bind_try
  ro_bind_try := mergeArray parent.ro_bind_try child.ro_bind_try
  dev_bind_try := mergeArray parent.dev_bind_try child.dev_bind_try
  tmpfs := mergeArray parent.tmpfs child.tmpfs
  chdir := Option.or child.chdir parent.chdir
  die_with_parent := child.die_with_parent
  new_session := child.new_session
  cap := mergeArray parent.cap child.cap
  env := envExtend parent.env child.env
  unset_env := mergeArray parent.unset_env child.unset_env

/-- The `Config` struct: a map from entry name to `Entry`, modelled as an
association list with unique keys. -/
structure Config where
  entries : List (String × Entry)
deriving DecidableEq, Repr

/-- `HashMap::get` on the entries map. -/
def entriesLookup : List (String × Entry) → String → Option Entry
  | [], _ => none
  | (n, e) :: rest, name => if n = name then some e else entriesLookup rest name

/-- `HashMap::insert` on the entries map: replace in place or append. -/
def insertEntry : List (String × Entry) → String → Entry → List (String × Entry)
  | [], name, e => [(name, e)]
  | (n, e') :: rest, name, e =>
    if n = name then (name, e) :: rest else (n, e') :: insertEntry rest name e

/-- `Config::get_entry`. -/
def Config.get_entry (c : Config) (name : String) : Option Entry :=
  entriesLookup c.entries name

/-- `Config::get_model`: the named entry, only if its type is `Model`. -/
def Config.get_model (c : Config) (name : String) : Option Entry :=
  match entriesLookup c.entries name with
  | some e => if e.entry_type = EntryType.model then some e else none
  | none => none

/-- The body of the loop in `Config::merge`: skip a disabled child entry when
the accumulated map already has the name; otherwise insert the child entry
(replacing wholesale when `override_parent`, else deep-merging). -/
def mergeStep (merged_entries : List (String × Entry)) (nc : String × Entry) :
    List (String × Entry) :=
  if !nc.2.enabled && (entriesLookup merged_entries nc.1).isSome then
    merged_entries
  else
    match entriesLookup merged_entries nc.1 with
    | some parent_entry =>
      if nc.2.override_parent then insertEntry merged_entries nc.1 nc.2
      else insertEntry merged_entries nc.1 (Entry.deep_merge parent_entry nc.2)
    | none => insertEntry merged_entries nc.1 nc.2

/-- `Config::merge` from `src/config/mod.rs`: start from the parent's entries
and fold every child entry in with `mergeStep`. -/
def Config.merge (parent child : Config) : Config :=
  { entries := child.entries.foldl mergeStep parent.entries }

/-- One iteration body of the template loop in `Config::merge_with_template`:
extend every array field of the accumulator with the template's values and
overlay the template's env. -/
def applyTemplate (result template : Entry) : Entry :=
  { result with
    share := result.share ++ template.share
    bind := result.bind ++ template.bind
    ro_bind := result.ro_bind ++ template.ro_bind
    dev_bind := result.dev_bind ++ template.dev_bind
    bind_try := result.bind_try ++ template.bind_try
    ro_bind_try := result.ro_bind_try ++ template.ro_bind_try
    dev_bind_try := result.dev_bind_try ++ template.dev_bind_try
    tmpfs := result.tmpfs ++ template.tmpfs
    unset_env := result.unset_env ++ template.unset_env
    cap := result.cap ++ template.cap
    env := envExtend result.env template.env }

/-- One step of the `for model_name in &cmd_config.extends` loop: apply the
template when a Model of that name exists, otherwise skip silently. -/
def templateStep (c : Config) (result : Entry) (model_name : String) : Entry :=
  match c.get_model model_name with
  | some template => applyTemplate result template
  | none => result

/-- `Config::merge_with_template` from `src/config/mod.rs`: start from the
command's scalar fields with empty collections, fold every extends name in,
then append the command's own array values and overlay its own env last. -/
def Config.merge_with_template (c : Config) (cmd_config : Entry) : Entry :=
  let init : Entry :=
    { entry_type := cmd_config.entry_type
      enabled := cmd_config.enabled
      override_parent := cmd_config.override_parent
      extends_ := []
      share := []
      bind := []
      ro_bind := []
      dev_bind := []
      bind_try := []
      ro_bind_try := []
      dev_bind_try := []
      tmpfs := []
      chdir := cmd_config.chdir
      die_with_parent := cmd_config.die_with_parent
      new_session := cmd_config.new_session
      cap := []
      env := []
      unset_env := [] }
  let result := cmd_config.extends_.foldl (templateStep c) init
  { result with
    share := result.share ++ cmd_config.share
    bind := result.bind ++ cmd_config.bind
    ro_bind := result.ro_bind ++ cmd_config.ro_bind
    dev_bind := result.dev_bind ++ cmd_config.dev_bind
    bind_try := result.bind_try ++ cmd_config.bind_try
    ro_bind_try := result.ro_bind_try ++ cmd_config.ro_bind_try
    dev_bind_try := result.dev_bind_try ++ cmd_config.dev_bind_try
    tmpfs := result.tmpfs ++ cmd_config.tmpfs
    unset_env := result.unset_env ++ cmd_config.unset_env
    cap := result.cap ++ cmd_config.cap
    env := envExtend result.env cmd_config.env }

/-- A YAML value, as far as the `extends` deserializer observes it: a string,
a sequence, or any other shape (mapping, number, ...), which the visitor in
`deserialize_extends` rejects. -/
inductive YamlValue where
  | str (s : String)
  | seq (xs : List YamlValue)
  | other

/-- The `visit_seq` branch of the `ExtendsVisitor`: every element must
deserialize as a string. -/
def decodeStringList : List YamlValue → Option (List String)
  | [] => some []
  | YamlValue.str s :: rest => (decodeStringList rest).map (fun l => s :: l)
  | YamlValue.seq _ :: _ => none
  | YamlValue.other :: _ => none

/-- `deserialize_extends` from `src/config/mod.rs`: a single string becomes a
one-element list, a sequence of strings is collected, anything else is a
deserialization error. -/
def deserialize_extends : YamlValue → Option (List String)
  | YamlValue.str s => some [s]
  | YamlValue.seq xs => decodeStringList xs
  | YamlValue.other => none

/-- The full decoding of the `extends` field, including the serde `default`
attribute: an absent field becomes the empty list, a present field goes
through `deserialize_extends`. -/
def decodeExtendsField : Option YamlValue → Option (List String)
  | none => some []
  | some v => deserialize_extends v

/-- The error kinds of `Config::from_file` (`src/config/mod.rs` lines
263-271): a read failure or a parse failure, each carrying the source path
attached by `.context(...)`. -/
inductive LoadError where
  | readError (path : String)
  | parseError (path : String)
deriving DecidableEq, Repr

/-- `Config::from_file`, with the filesystem read and the YAML parse passed
in explicitly: read the file (read failure aborts with the path), parse it
(parse failure aborts with the path). -/
def Config.from_file (fsRead : String → Option String)
    (parseYaml : String → Option Config) (path : String) :
    Except LoadError Config :=
  match fsRead path with
  | none => Except.error (LoadError.readError path)
  | some text =>
    match parseYaml text with
    | none => Except.error (LoadError.parseError path)
    | some c => Except.ok c

/-- `ConfigLoader::load` from `src/config/loader.rs`, with the discovered
file paths (`get_user_config_file` / `get_local_config_file` results) and
the filesystem passed in explicitly: both present merges them (local over
user), one present loads it, neither present returns `none`. -/
def ConfigLoader.load (fsRead : String → Option String)
    (parseYaml : String → Option Config)
    (user_config local_config : Option String) :
    Except LoadError (Option Config) :=
  match user_config, local_config with
  | some user_path, some local_path =>
    match Config.from_file fsRead parseYaml user_path with
    | Except.error e => Except.error e
    | Except.ok user =>
      match Config.from_file fsRead parseYaml local_path with
      | Except.error e => Except.error e
      | Except.ok loc => Except.ok (some (Config.merge user loc))
  | some user_path, none =>
    match Config.from_file fsRead parseYaml user_path with
    | Except.error e => Except.error e
    | Except.ok c => Except.ok (some c)
  | none, some local_path =>
    match Config.from_file fsRead parseYaml local_path with
    | Except.error e => Except.error e
    | Except.ok c => Except.ok (some c)
  | none, none => Except.ok none

/-- `ConfigLoader::get_local_config_dir` from `src/config/loader.rs`, with
the starting directory and the filesystem probe passed in explicitly.  A
directory is its list of path components from the root (the root is `[]`,
whose parent is `None`); `hasConfig d` abstracts
`d.join(".shwrap.yaml").exists()`.  Each step checks the current directory
and moves to the parent (`dropLast`), stopping at the root. -/
def ConfigLoader.get_local_config_dir (hasConfig : List String → Bool) :
    List String → Option (List String)
  | [] => if hasConfig [] then some [] else none
  | x :: xs =>
    if hasConfig (x :: xs) then some (x :: xs)
    else ConfigLoader.get_local_config_dir hasConfig (x :: xs).dropLast
termination_by dir => dir.length
decreasing_by
  simp [List.length_dropLast]

/-- The `HashMap` key-uniqueness invariant for a `Config` and the `env` maps
of its entries. -/
def Config.wfKeys (c : Config) : Prop :=
  (c.entries.map Prod.fst).Nodup ∧ ∀ p ∈ c.entries, (p.2.env.map Prod.fst).Nodup

/-- All ten array-valued fields of an entry are duplicate-free. -/
def Entry.arraysNodup (e : Entry) : Prop :=
  e.share.Nodup ∧ e.bind.Nodup ∧ e.ro_bind.Nodup ∧ e.dev_bind.Nodup ∧
  e.bind_try.Nodup ∧ e.ro_bind_try.Nodup ∧ e.dev_bind_try.Nodup ∧
  e.tmpfs.Nodup ∧ e.cap.Nodup ∧ e.unset_env.Nodup

instance (c : Config) : Decidable c.wfKeys := by
  unfold Config.wfKeys
  exact inferInstance

instance (e : Entry) : Decidable e.arraysNodup := by
  unfold Entry.arraysNodup
  exact inferInstance

/-- Reference dedup keeping the first occurrence, stated independently of the
seen-set implementation: keep the head and drop every later element equal to
it, then recurse. -/
def dedupSpecFirst : List String → List String
  | [] => []
  | x :: xs => x :: dedupSpecFirst (xs.filter (fun y => y ≠ x))
termination_by l => l.length
decreasing_by
  exact Nat.lt_succ_of_le (List.length_filter_le _ _)

/-! ### Lookup and insertion lemmas for the association-list maps -/

theorem entriesLookup_insertEntry_self (es : List (String × Entry)) (n : String) (e : Entry) :
    entriesLookup (insertEntry es n e) n = some e := by
  induction es with
  | nil => simp [insertEntry, entriesLookup]
  | cons hd tl ih =>
    obtain ⟨m, e'⟩ := hd
    by_cases h : m = n
    · subst h
      simp [insertEntry, entriesLookup]
    · simp [insertEntry, entriesLookup, h, ih]

theorem entriesLookup_insertEntry_ne (es : List (String × Entry)) (n name : String)
    (e : Entry) (h : n ≠ name) :
    entriesLookup (insertEntry es n e) name = entriesLookup es name := by
  induction es with
  | nil => simp [insertEntry, entriesLookup, h]
  | cons hd tl ih =>
    obtain ⟨m, e'⟩ := hd
    by_cases hm : m = n
    · subst hm
      simp [insertEntry, entriesLookup, h]
    · simp [insertEntry, entriesLookup, hm, ih]

theorem insertEntry_lookup_self (es : List (String × Entry)) (n : String) (e : Entry)
    (h : entriesLookup es n = some e) : insertEntry es n e = es := by
  induction es with
  | nil => simp [entriesLookup] at h
  | cons hd tl ih =>
    obtain ⟨m, e'⟩ := hd
    by_cases hm : m = n
    · subst hm
      simp [entriesLookup] at h
      simp [insertEntry, h]
    · simp [entriesLookup, hm] at h
      simp [insertEntry, hm, ih h]

theorem entriesLookup_mem {es : List (String × Entry)} {name : String} {e : Entry}
    (h : entriesLookup es name = some e) : (name, e) ∈ es := by
  induction es with
  | nil => simp [entriesLookup] at h
  | cons hd tl ih =>
    obtain ⟨m, e'⟩ := hd
    by_cases hm : m = name
    · subst hm
      simp [entriesLookup] at h
      simp [h]
    · simp [entriesLookup, hm] at h
      exact List.mem_cons_of_mem _ (ih h)

theorem entriesLookup_of_mem_nodup {es : List (String × Entry)} {name : String} {e : Entry}
    (hnd : (es.map Prod.fst).Nodup) (hm : (name, e) ∈ es) :
    entriesLookup es name = some e := by
  induction es with
  | nil => simp at hm
  | cons hd tl ih =>
    obtain ⟨m, e'⟩ := hd
    simp only [List.map_cons, List.nodup_cons] at hnd
    rcases List.mem_cons.mp hm with heq | htl
    · obtain ⟨h1, h2⟩ := Prod.mk.injEq .. ▸ heq.symm
      subst h1; subst h2
      simp [entriesLookup]
    · have hne : m ≠ name := by
        intro hcontra
        subst hcontra
        exact hnd.1 (List.mem_map.mpr ⟨(m, e), htl, rfl⟩)
      simp [entriesLookup, hne]
      exact ih hnd.2 htl

/-! ### Env map lemmas -/

theorem envLookup_envInsert_self (a : Env) (k : String) (v : String) :
    envLookup (envInsert a k v) k = some v := by
  induction a with
  | nil => simp [envInsert, envLookup]
  | cons hd tl ih =>
    obtain ⟨k', v'⟩ := hd
    by_cases h : k' = k
    · subst h
      simp [envInsert, envLookup]
    · simp [envInsert, envLookup, h, ih]

theorem envLookup_envInsert_ne (a : Env) (k k' : String) (v : String) (h : k' ≠ k) :
    envLookup (envInsert a k' v) k = envLookup a k := by
  induction a with
  | nil => simp [envInsert, envLookup, h]
  | cons hd tl ih =>
    obtain ⟨m, w⟩ := hd
    by_cases hm : m = k'
    · subst hm
      simp [envInsert, envLookup, h]
    · simp [envInsert, envLookup, hm, ih]

theorem envInsert_lookup_self (a : Env) (k : String) (v : String)
    (h : envLookup a k = some v) : envInsert a k v = a := by
  induction a with
  | nil => simp [envLookup] at h
  | cons hd tl ih =>
    obtain ⟨m, w⟩ := hd
    by_cases hm : m = k
    · subst hm
      simp [envLookup] at h
      simp [envInsert, h]
    · simp [envLookup, hm] at h
      simp [envInsert, hm, ih h]

theorem envLookup_of_mem_nodup {a : Env} {k v : String}
    (hnd : (a.map Prod.fst).Nodup) (hm : (k, v) ∈ a) :
    envLookup a k = some v := by
  induction a with
  | nil => simp at hm
  | cons hd tl ih =>
    obtain ⟨m, w⟩ := hd
    simp only [List.map_cons, List.nodup_cons] at hnd
    rcases List.mem_cons.mp hm with heq | htl
    · obtain ⟨h1, h2⟩ := Prod.mk.injEq .. ▸ heq.symm
      subst h1; subst h2
      simp [envLookup]
    · have hne : m ≠ k := by
        intro hcontra
        subst hcontra
        exact hnd.1 (List.mem_map.mpr ⟨(m, v), htl, rfl⟩)
      simp [envLookup, hne]
      exact ih hnd.2 htl

/-- Folding a function that fixes `a` over any list leaves `a` unchanged. -/
theorem foldl_fixed {α β : Type} (f : α → β → α) (a : α) (l : List β)
    (h : ∀ x ∈ l, f a x = a) : l.foldl f a = a := by
  induction l with
  | nil => rfl
  | cons hd tl ih =>
    rw [List.foldl_cons, h hd (List.mem_cons_self _ _)]
    exact ih fun x hx => h x (List.mem_cons_of_mem _ hx)

theorem envExtend_self {a : Env} (hnd : (a.map Prod.fst).Nodup) :
    envExtend a a = a := by
  unfold envExtend
  exact foldl_fixed _ a a fun kv hkv =>
    envInsert_lookup_self a kv.1 kv.2 (envLookup_of_mem_nodup hnd hkv)

/-! ### `mergeStep` fold lemmas -/

theorem mergeStep_preserve (es : List (String × Entry)) (nc : String × Entry)
    (name : String) (h : nc.1 ≠ name) :
    entriesLookup (mergeStep es nc) name = entriesLookup es name := by
  unfold mergeStep
  by_cases hskip : (!nc.2.enabled && (entriesLookup es nc.1).isSome) = true
  · simp [hskip]
  · simp only [hskip, if_false, Bool.not_eq_true] at *
    cases hl : entriesLookup es nc.1 with
    | some parent_entry =>
      by_cases hov : nc.2.override_parent
      · simp [hl, hov, entriesLookup_insertEntry_ne _ _ _ _ h, hskip]
      · simp [hl, hov, entriesLookup_insertEntry_ne _ _ _ _ h, hskip]
    | none => simp [hl, entriesLookup_insertEntry_ne _ _ _ _ h, hskip]

theorem foldl_mergeStep_preserve (l : List (String × Entry))
    (es : List (String × Entry)) (name : String)
    (h : ∀ nc ∈ l, nc.1 ≠ name) :
    entriesLookup (l.foldl mergeStep es) name = entriesLookup es name := by
  induction l generalizing es with
  | nil => rfl
  | cons hd tl ih =>
    rw [List.foldl_cons, ih _ fun nc hnc => h nc (List.mem_cons_of_mem _ hnc)]
    exact mergeStep_preserve es hd name (h hd (List.mem_cons_self _ _))

theorem merge_fold_disabled (l : List (String × Entry)) (es : List (String × Entry))
    (name : String) (be ce : Entry)
    (hnd : (l.map Prod.fst).Nodup)
    (hbe : entriesLookup es name = some be)
    (hmem : (name, ce) ∈ l)
    (hdis : ce.enabled = false) :
    entriesLookup (l.foldl mergeStep es) name = some be := by
  induction l generalizing es with
  | nil => simp at hmem
  | cons hd tl ih =>
    simp only [List.map_cons, List.nodup_cons] at hnd
    rcases List.mem_cons.mp hmem with heq | htl
    · have hstep : mergeStep es hd = es := by
        rw [← heq]
        unfold mergeStep
        simp [hdis, hbe]
      rw [List.foldl_cons, hstep]
      have hname : ∀ nc ∈ tl, nc.1 ≠ name := by
        intro nc hnc hcontra
        apply hnd.1
        rw [← heq]
        subst hcontra
        exact List.mem_map.mpr ⟨nc, hnc, rfl⟩
      rw [foldl_mergeStep_preserve tl es name hname]
      exact hbe
    · have hne : hd.1 ≠ name := by
        intro hcontra
        apply hnd.1
        rw [hcontra]
        exact List.mem_map.mpr ⟨(name, ce), htl, rfl⟩
      rw [List.foldl_cons]
      refine ih (mergeStep es hd) hnd.2 ?_ htl
      rw [mergeStep_preserve es hd name hne]
      exact hbe

theorem merge_fold_override (l : List (String × Entry)) (es : List (String × Entry))
    (name : String) (pe ce : Entry)
    (hnd : (l.map Prod.fst).Nodup)
    (hpe : entriesLookup es name = some pe)
    (hmem : (name, ce) ∈ l)
    (hen : ce.enabled = true)
    (hov : ce.override_parent = true) :
    entriesLookup (l.foldl mergeStep es) name = some ce := by
  induction l generalizing es pe with
  | nil => simp at hmem
  | cons hd tl ih =>
    simp only [List.map_cons, List.nodup_cons] at hnd
    rcases List.mem_cons.mp hmem with heq | htl
    · have hstep : mergeStep es hd = insertEntry es name ce := by
        rw [← heq]
        unfold mergeStep
        simp [hen, hpe, hov]
      rw [List.foldl_cons, hstep]
      have hname : ∀ nc ∈ tl, nc.1 ≠ name := by
        intro nc hnc hcontra
        apply hnd.1
        rw [← heq]
        subst hcontra
        exact List.mem_map.mpr ⟨nc, hnc, rfl⟩
      rw [foldl_mergeStep_preserve tl _ name hname]
      exact entriesLookup_insertEntry_self es name ce
    · have hne : hd.1 ≠ name := by
        intro hcontra
        apply hnd.1
        rw [hcontra]
        exact List.mem_map.mpr ⟨(name, ce), htl, rfl⟩
      rw [List.foldl_cons]
      refine ih (mergeStep es hd) pe hnd.2 ?_ htl
      rw [mergeStep_preserve es hd name hne]
      exact hpe

/-! ### Deduplication lemmas -/

theorem dedupFrom_nodup_notMem (l : List String) :
    ∀ seen : List String,
      (dedupFrom seen l).Nodup ∧ ∀ x ∈ dedupFrom seen l, x ∉ seen := by
  induction l with
  | nil => intro seen; simp [dedupFrom]
  | cons hd tl ih =>
    intro seen
    by_cases h : hd ∈ seen
    · simpa [dedupFrom, h] using ih seen
    · obtain ⟨ihn, ihm⟩ := ih (hd :: seen)
      refine ⟨?_, ?_⟩
      · simp only [dedupFrom, h, if_false, List.nodup_cons]
        exact ⟨fun hmem => (ihm hd hmem) (List.mem_cons_self _ _), ihn⟩
      · intro x hx
        simp only [dedupFrom, h, if_false, List.mem_cons] at hx
        rcases hx with rfl | hx
        · exact h
        · exact fun hxs => (ihm x hx) (List.mem_cons_of_mem _ hxs)

theorem deduplicate_vec_nodup (l : List String) : (deduplicate_vec l).Nodup :=
  (dedupFrom_nodup_notMem l []).1

theorem dedupFrom_nil_of_subset (l : List String) :
    ∀ seen : List String, (∀ x ∈ l, x ∈ seen) → dedupFrom seen l = [] := by
  induction l with
  | nil => intro seen _; rfl
  | cons hd tl ih =>
    intro seen h
    simp only [dedupFrom, h hd (List.mem_cons_self _ _), if_true]
    exact ih seen fun x hx => h x (List.mem_cons_of_mem _ hx)

theorem dedupFrom_append_of_nodup (a : List String) :
    ∀ (b seen : List String), a.Nodup → (∀ x ∈ a, x ∉ seen) →
      dedupFrom seen (a ++ b) = a ++ dedupFrom (a.reverse ++ seen) b := by
  induction a with
  | nil => intro b seen _ _; simp
  | cons hd tl ih =>
    intro b seen hnd hdisj
    simp only [List.nodup_cons] at hnd
    have hhd : hd ∉ seen := hdisj hd (List.mem_cons_self _ _)
    simp only [List.cons_append, dedupFrom, hhd, if_false, List.append_eq]
    rw [ih b (hd :: seen) hnd.2 ?side]
    case side =>
      intro x hx
      simp only [List.mem_cons, not_or]
      exact ⟨fun hcontra => hnd.1 (hcontra ▸ hx), hdisj x (List.mem_cons_of_mem _ hx)⟩
    have harr : tl.reverse ++ (hd :: seen) = (hd :: tl).reverse ++ seen := by
      simp
    rw [harr]

theorem deduplicate_vec_append_self {a : List String} (hnd : a.Nodup) :
    deduplicate_vec (a ++ a) = a := by
  unfold deduplicate_vec
  rw [dedupFrom_append_of_nodup a a [] hnd (by simp)]
  rw [dedupFrom_nil_of_subset a _ (by intro x hx; simpa using hx)]
  simp

theorem mergeArray_empty (p : List String) : mergeArray p [] = p := rfl

theorem mergeArray_of_ne_nil {p c : List String} (h : c ≠ []) :
    mergeArray p c = deduplicate_vec (p ++ c) := by
  unfold mergeArray
  rw [if_neg (by simpa [List.isEmpty_iff] using h)]

theorem mergeArray_self {a : List String} (hnd : a.Nodup) : mergeArray a a = a := by
  cases a with
  | nil => rfl
  | cons hd tl => rw [mergeArray_of_ne_nil (by simp), deduplicate_vec_append_self hnd]

theorem mergeArray_nodup {p c : List String} (h : c ≠ []) : (mergeArray p c).Nodup := by
  rw [mergeArray_of_ne_nil h]
  exact deduplicate_vec_nodup _

theorem dedupFrom_eq_spec (l : List String) :
    ∀ seen : List String,
      dedupFrom seen l = dedupSpecFirst (l.filter (fun y => decide (y ∉ seen))) := by
  induction l with
  | nil => intro seen; simp [dedupFrom, dedupSpecFirst]
  | cons hd tl ih =>
    intro seen
    by_cases h : hd ∈ seen
    · simp only [dedupFrom, h, if_true, List.filter_cons]
      rw [if_neg (by simp [h])]
      exact ih seen
    · simp only [dedupFrom, h, if_false, List.filter_cons]
      rw [if_pos (by simp [h])]
      unfold dedupSpecFirst
      rw [ih (hd :: seen)]
      congr 1
      rw [@List.filter_filter _ (fun y => decide (y ≠ hd)) (fun y => decide (y ∉ seen)) tl]
      congr 1
      apply List.filter_congr
      intro a _
      by_cases h1 : a = hd
      · simp [h1]
      · by_cases h2 : a ∈ seen
        · simp [h1, h2]
        · simp [h1, h2]

/-- `deduplicate_vec` implements first-occurrence-wins deduplication. -/
theorem deduplicate_vec_eq_spec (l : List String) :
    deduplicate_vec l = dedupSpecFirst l := by
  unfold deduplicate_vec
  rw [dedupFrom_eq_spec l []]
  congr 1
  apply List.filter_eq_self.mpr
  intro a _
  simp

/-- Deep-merging a well-formed entry with itself gives the entry back. -/
theorem Entry.deep_merge_self (e : Entry) (hnd : e.arraysNodup)
    (henv : (e.env.map Prod.fst).Nodup) : Entry.deep_merge e e = e := by
  obtain ⟨h1, h2, h3, h4, h5, h6, h7, h8, h9, h10⟩ := hnd
  obtain ⟨t, en, ov, ex, sh, bi, rb, db, bt, rbt, dbt, tm, cd, dw, ns, cp, ev, ue⟩ := e
  simp only [Entry.deep_merge]
  rw [mergeArray_self h1, mergeArray_self h2, mergeArray_self h3, mergeArray_self h4,
    mergeArray_self h5, mergeArray_self h6, mergeArray_self h7, mergeArray_self h8,
    mergeArray_self h9, mergeArray_self h10, Option.or_self, envExtend_self henv]

/-! ### Env overlay lemmas -/

theorem envLookup_append (l1 l2 : Env) (k : String) :
    envLookup (l1 ++ l2) k = Option.or (envLookup l1 k) (envLookup l2 k) := by
  induction l1 with
  | nil => simp [envLookup]
  | cons hd tl ih =>
    obtain ⟨k', v⟩ := hd
    by_cases h : k' = k
    · simp [envLookup, h]
    · simp [envLookup, h, ih]

theorem envLookupLast_cons (hd : String × String) (tl : Env) (k : String) :
    envLookupLast (hd :: tl) k =
      Option.or (envLookupLast tl k) (if hd.1 = k then some hd.2 else none) := by
  unfold envLookupLast
  rw [List.reverse_cons, envLookup_append]
  obtain ⟨k', v⟩ := hd
  by_cases h : k' = k
  · simp [envLookup, h]
  · simp [envLookup, h]

theorem envLookup_envExtend (b : Env) :
    ∀ (a : Env) (k : String),
      envLookup (envExtend a b) k = Option.or (envLookupLast b k) (envLookup a k) := by
  induction b with
  | nil => intro a k; simp [envExtend, envLookupLast, envLookup]
  | cons hd tl ih =>
    intro a k
    obtain ⟨k', v⟩ := hd
    have hstep : envExtend a ((k', v) :: tl) = envExtend (envInsert a k' v) tl := rfl
    rw [hstep, ih (envInsert a k' v) k, envLookupLast_cons]
    by_cases h : k' = k
    · subst h
      cases envLookupLast tl k' with
      | some w => simp
      | none => simp [envLookup_envInsert_self]
    · cases envLookupLast tl k with
      | some w => simp
      | none => simp [envLookup_envInsert_ne a k k' v h, h]

theorem overlayLookup_foldl (es : List Env) (k : String) :
    ∀ acc : Option String,
      es.foldl (fun a e => Option.or (envLookupLast e k) a) acc =
        Option.or (overlayLookup es k) acc := by
  induction es with
  | nil => intro acc; simp [overlayLookup]
  | cons hd tl ih =>
    intro acc
    rw [List.foldl_cons]
    rw [ih (Option.or (envLookupLast hd k) acc)]
    have hov : overlayLookup (hd :: tl) k =
        Option.or (overlayLookup tl k) (envLookupLast hd k) := by
      unfold overlayLookup
      rw [List.foldl_cons, ih (Option.or (envLookupLast hd k) none), Option.or_none]
      rfl
    rw [hov, Option.or_assoc]

theorem envLookup_foldl_envExtend (ts : List Entry) (k : String) :
    ∀ a : Env,
      envLookup (ts.foldl (fun e t => envExtend e t.env) a) k =
        Option.or (overlayLookup (ts.map Entry.env) k) (envLookup a k) := by
  induction ts with
  | nil => intro a; simp [overlayLookup]
  | cons hd tl ih =>
    intro a
    rw [List.foldl_cons, ih (envExtend a hd.env), envLookup_envExtend]
    have hov : overlayLookup (hd.env :: tl.map Entry.env) k =
        Option.or (overlayLookup (tl.map Entry.env) k) (envLookupLast hd.env k) := by
      unfold overlayLookup
      rw [List.foldl_cons, overlayLookup_foldl (tl.map Entry.env) k
        (Option.or (envLookupLast hd.env k) none), Option.or_none]
      rfl
    rw [List.map_cons, hov, Option.or_assoc]

/-! ### Template fold characterization -/

theorem foldl_templateStep_spec (c : Config) (names : List String) :
    ∀ acc : Entry,
      (names.foldl (templateStep c) acc).share =
        acc.share ++ (((names.filterMap c.get_model).map Entry.share).flatten) ∧
      (names.foldl (templateStep c) acc).bind =
        acc.bind ++ (((names.filterMap c.get_model).map Entry.bind).flatten) ∧
      (names.foldl (templateStep c) acc).ro_bind =
        acc.ro_bind ++ (((names.filterMap c.get_model).map Entry.ro_bind).flatten) ∧
      (names.foldl (templateStep c) acc).dev_bind =
        acc.dev_bind ++ (((names.filterMap c.get_model).map Entry.dev_bind).flatten) ∧
      (names.foldl (templateStep c) acc).bind_try =
        acc.bind_try ++ (((names.filterMap c.get_model).map Entry.bind_try).flatten) ∧
      (names.foldl (templateStep c) acc).ro_bind_try =
        acc.ro_bind_try ++ (((names.filterMap c.get_model).map Entry.ro_bind_try).flatten) ∧
      (names.foldl (templateStep c) acc).dev_bind_try =
        acc.dev_bind_try ++ (((names.filterMap c.get_model).map Entry.dev_bind_try).flatten) ∧
      (names.foldl (templateStep c) acc).tmpfs =
        acc.tmpfs ++ (((names.filterMap c.get_model).map Entry.tmpfs).flatten) ∧
      (names.foldl (templateStep c) acc).cap =
        acc.cap ++ (((names.filterMap c.get_model).map Entry.cap).flatten) ∧
      (names.foldl (templateStep c) acc).unset_env =
        acc.unset_env ++ (((names.filterMap c.get_model).map Entry.unset_env).flatten) ∧
      (names.foldl (templateStep c) acc).env =
        (names.filterMap c.get_model).foldl (fun e t => envExtend e t.env) acc.env ∧
      (names.foldl (templateStep c) acc).entry_type = acc.entry_type ∧
      (names.foldl (templateStep c) acc).enabled = acc.enabled ∧
      (names.foldl (templateStep c) acc).override_parent = acc.override_parent ∧
      (names.foldl (templateStep c) acc).extends_ = acc.extends_ ∧
      (names.foldl (templateStep c) acc).chdir = acc.chdir ∧
      (names.foldl (templateStep c) acc).die_with_parent = acc.die_with_parent ∧
      (names.foldl (templateStep c) acc).new_session = acc.new_session := by
  induction names with
  | nil => intro acc; simp
  | cons n rest ih =>
    intro acc
    cases hm : c.get_model n with
    | none =>
      have hstep : templateStep c acc n = acc := by simp [templateStep, hm]
      rw [List.foldl_cons, hstep, List.filterMap_cons_none hm]
      exact ih acc
    | some t =>
      have hstep : templateStep c acc n = applyTemplate acc t := by simp [templateStep, hm]
      rw [List.foldl_cons, hstep, List.filterMap_cons_some hm]
      obtain ⟨hsh, hbi, hrb, hdb, hbt, hrbt, hdbt, htm, hcp, hue, henv,
        hty, hen, hov, hex, hcd, hdw, hns⟩ := ih (applyTemplate acc t)
      refine ⟨?_, ?_, ?_, ?_, ?_, ?_, ?_, ?_, ?_, ?_, ?_, ?_, ?_, ?_, ?_, ?_, ?_, ?_⟩
      · rw [hsh]; simp [applyTemplate, List.append_assoc]
      · rw [hbi]; simp [applyTemplate, List.append_assoc]
      · rw [hrb]; simp [applyTemplate, List.append_assoc]
      · rw [hdb]; simp [applyTemplate, List.append_assoc]
      · rw [hbt]; simp [applyTemplate, List.append_assoc]
      · rw [hrbt]; simp [applyTemplate, List.append_assoc]
      · rw [hdbt]; simp [applyTemplate, List.append_assoc]
      · rw [htm]; simp [applyTemplate, List.append_assoc]
      · rw [hcp]; simp [applyTemplate, List.append_assoc]
      · rw [hue]; simp [applyTemplate, List.append_assoc]
      · rw [henv]; simp [applyTemplate]
      · rw [hty]; simp [applyTemplate]
      · rw [hen]; simp [applyTemplate]
      · rw [hov]; simp [applyTemplate]
      · rw [hex]; simp [applyTemplate]
      · rw [hcd]; simp [applyTemplate]
      · rw [hdw]; simp [applyTemplate]
      · rw [hns]; simp [applyTemplate]

/-! ### Directory-walk characterization -/

theorem dropLast_take_eq {α : Type} (l : List α) (n : Nat) (h : n ≤ l.length - 1) :
    l.dropLast.take n = l.take n := by
  rw [List.dropLast_eq_take, List.take_take, min_eq_left h]

theorem get_local_config_dir_bounded (hasConfig : List String → Bool) :
    ∀ (N : Nat) (start : List String), start.length ≤ N →
      (∀ d, ConfigLoader.get_local_config_dir hasConfig start = some d →
        hasConfig d = true ∧
        ∃ n, n ≤ start.length ∧ d = start.take n ∧
          ∀ m, n < m → m ≤ start.length → hasConfig (start.take m) = false) ∧
      (ConfigLoader.get_local_config_dir hasConfig start = none →
        ∀ n, n ≤ start.length → hasConfig (start.take n) = false) := by
  intro N
  induction N with
  | zero =>
    intro start hlen
    have hnil : start = [] := List.length_eq_zero.mp (Nat.le_zero.mp hlen)
    subst hnil
    constructor
    · intro d hd
      cases hc : hasConfig [] with
      | true =>
        simp [ConfigLoader.get_local_config_dir, hc] at hd
        subst hd
        exact ⟨hc, 0, by simp, rfl, by omega⟩
      | false => simp [ConfigLoader.get_local_config_dir, hc] at hd
    · intro hnone n hn
      have hn0 : n = 0 := Nat.le_zero.mp hn
      subst hn0
      cases hc : hasConfig [] with
      | true => simp [ConfigLoader.get_local_config_dir, hc] at hnone
      | false => simpa using hc
  | succ N ih =>
    intro start hlen
    cases hstart : start with
    | nil =>
      exact ih [] (by simp)
    | cons x xs =>
      by_cases hc : hasConfig (x :: xs) = true
      · constructor
        · intro d hd
          simp [ConfigLoader.get_local_config_dir, hc] at hd
          subst hd
          refine ⟨hc, (x :: xs).length, Nat.le_refl _, (List.take_length _).symm, ?_⟩
          intro m hm1 hm2
          omega
        · intro hnone
          simp [ConfigLoader.get_local_config_dir, hc] at hnone
      · have hrec : ConfigLoader.get_local_config_dir hasConfig (x :: xs) =
            ConfigLoader.get_local_config_dir hasConfig (x :: xs).dropLast := by
          simp [ConfigLoader.get_local_config_dir, hc]
        have hlen' : (x :: xs).dropLast.length ≤ N := by
          rw [List.length_dropLast]
          subst hstart
          simp at hlen ⊢
          omega
        obtain ⟨ihsome, ihnone⟩ := ih (x :: xs).dropLast hlen'
        have hlendrop : (x :: xs).dropLast.length = (x :: xs).length - 1 :=
          List.length_dropLast _
        constructor
        · intro d hd
          rw [hrec] at hd
          obtain ⟨hcd, n, hn, hdn, hmax⟩ := ihsome d hd
          rw [hlendrop] at hn
          refine ⟨hcd, n, by omega, ?_, ?_⟩
          · rw [hdn, dropLast_take_eq _ n hn]
          · intro m hm1 hm2
            by_cases hme : m ≤ (x :: xs).length - 1
            · have := hmax m hm1 (by omega)
              rwa [dropLast_take_eq _ m hme] at this
            · have hmeq : m = (x :: xs).length := by omega
              rw [hmeq, List.take_length]
              simpa using hc
        · intro hnone n hn
          rw [hrec] at hnone
          by_cases hne : n ≤ (x :: xs).length - 1
          · have := ihnone hnone n (by omega)
            rwa [dropLast_take_eq _ n hne] at this
          · have hneq : n = (x :: xs).length := by omega
            rw [hneq, List.take_length]
            simpa using hc

/-! ### Claim theorems -/

/-- C1: for every base and override configuration and every entry name
present in both, if the override-source entry has `enabled == false`, then
`Config::merge` maps that name to the base-source entry completely
unchanged (including its `enabled` value), regardless of the override
entry's `override_parent` value. -/
theorem claim_C1_disabled_override_keeps_base
    (parent child : Config) (name : String) (be ce : Entry)
    (hnd : (child.entries.map Prod.fst).Nodup)
    (hbase : parent.get_entry name = some be)
    (hover : child.get_entry name = some ce)
    (hdis : ce.enabled = false) :
    (Config.merge parent child).get_entry name = some be := by
  simp only [Config.get_entry, Config.merge] at *
  exact merge_fold_disabled child.entries parent.entries name be ce hnd hbase
    (entriesLookup_mem hover) hdis

/-- Concrete inputs instantiating C1: the base maps `node` to an enabled
entry sharing `user`, the override maps `node` to a disabled entry sharing
`network` with `override: true`. -/
def c1base : Config := ⟨[("node", { default_entry with share := ["user"] })]⟩

def c1over : Config :=
  ⟨[("node", { default_entry with
      enabled := false, override_parent := true, share := ["network"] })]⟩

theorem claim_C1_witness :
    (c1over.entries.map Prod.fst).Nodup ∧
    c1base.get_entry "node" = some { default_entry with share := ["user"] } ∧
    c1over.get_entry "node" = some { default_entry with
      enabled := false, override_parent := true, share := ["network"] } ∧
    (Config.merge c1base c1over).get_entry "node" =
      some { default_entry with share := ["user"] } :=
  ⟨by decide, by decide, by decide,
    claim_C1_disabled_override_keeps_base c1base c1over "node"
      { default_entry with share := ["user"] }
      { default_entry with
        enabled := false, override_parent := true, share := ["network"] }
      (by decide) (by decide) (by decide) (by decide)⟩

theorem mergeArray_cases (p c : List String) :
    (c = [] → mergeArray p c = p) ∧
    (c ≠ [] → mergeArray p c = deduplicate_vec (p ++ c)) :=
  ⟨fun h => h ▸ mergeArray_empty p, fun h => mergeArray_of_ne_nil h⟩

/-- C2: in `Entry::deep_merge`, every array-valued field is kept equal to
the parent's array when the child's array is empty, and otherwise is the
parent's array followed by the child's array deduplicated by
`deduplicate_vec`, which is exactly first-occurrence-keeping stable
deduplication (`dedupSpecFirst`). -/
theorem claim_C2_deep_merge_arrays (parent child : Entry) :
    (∀ l : List String, deduplicate_vec l = dedupSpecFirst l) ∧
    ((child.share = [] → (Entry.deep_merge parent child).share = parent.share) ∧
     (child.share ≠ [] → (Entry.deep_merge parent child).share =
        deduplicate_vec (parent.share ++ child.share))) ∧
    ((child.bind = [] → (Entry.deep_merge parent child).bind = parent.bind) ∧
     (child.bind ≠ [] → (Entry.deep_merge parent child).bind =
        deduplicate_vec (parent.bind ++ child.bind))) ∧
    ((child.ro_bind = [] → (Entry.deep_merge parent child).ro_bind = parent.ro_bind) ∧
     (child.ro_bind ≠ [] → (Entry.deep_merge parent child).ro_bind =
        deduplicate_vec (parent.ro_bind ++ child.ro_bind))) ∧
    ((child.dev_bind = [] → (Entry.deep_merge parent child).dev_bind = parent.dev_bind) ∧
     (child.dev_bind ≠ [] → (Entry.deep_merge parent child).dev_bind =
        deduplicate_vec (parent.dev_bind ++ child.dev_bind))) ∧
    ((child.bind_try = [] → (Entry.deep_merge parent child).bind_try = parent.bind_try) ∧
     (child.bind_try ≠ [] → (Entry.deep_merge parent child).bind_try =
        deduplicate_vec (parent.bind_try ++ child.bind_try))) ∧
    ((child.ro_bind_try = [] →
        (Entry.deep_merge parent child).ro_bind_try = parent.ro_bind_try) ∧
     (child.ro_bind_try ≠ [] → (Entry.deep_merge parent child).ro_bind_try =
        deduplicate_vec (parent.ro_bind_try ++ child.ro_bind_try))) ∧
    ((child.dev_bind_try = [] →
        (Entry.deep_merge parent child).dev_bind_try = parent.dev_bind_try) ∧
     (child.dev_bind_try ≠ [] → (Entry.deep_merge parent child).dev_bind_try =
        deduplicate_vec (parent.dev_bind_try ++ child.dev_bind_try))) ∧
    ((child.tmpfs = [] → (Entry.deep_merge parent child).tmpfs = parent.tmpfs) ∧
     (child.tmpfs ≠ [] → (Entry.deep_merge parent child).tmpfs =
        deduplicate_vec (parent.tmpfs ++ child.tmpfs))) ∧
    ((child.cap = [] → (Entry.deep_merge parent child).cap = parent.cap) ∧
     (child.cap ≠ [] → (Entry.deep_merge parent child).cap =
        deduplicate_vec (parent.cap ++ child.cap))) ∧
    ((child.unset_env = [] →
        (Entry.deep_merge parent child).unset_env = parent.unset_env) ∧
     (child.unset_env ≠ [] → (Entry.deep_merge parent child).unset_env =
        deduplicate_vec (parent.unset_env ++ child.unset_env))) :=
  ⟨deduplicate_vec_eq_spec,
    mergeArray_cases parent.share child.share,
    mergeArray_cases parent.bind child.bind,
    mergeArray_cases parent.ro_bind child.ro_bind,
    mergeArray_cases parent.dev_bind child.dev_bind,
    mergeArray_cases parent.bind_try child.bind_try,
    mergeArray_cases parent.ro_bind_try child.ro_bind_try,
    mergeArray_cases parent.dev_bind_try child.dev_bind_try,
    mergeArray_cases parent.tmpfs child.tmpfs,
    mergeArray_cases parent.cap child.cap,
    mergeArray_cases parent.unset_env child.unset_env⟩

theorem claim_C2_witness :
    (["b", "c"] : List String) ≠ [] ∧
    (Entry.deep_merge { default_entry with share := ["a", "b"] }
      { default_entry with share := ["b", "c"] }).share = ["a", "b", "c"] := by
  refine ⟨by decide, ?_⟩
  have h := (claim_C2_deep_merge_arrays { default_entry with share := ["a", "b"] }
    { default_entry with share := ["b", "c"] }).2.1.2 (by decide)
  rw [h]
  decide

/-- C3: for every base and override configuration and every entry name
present in both, if the override entry is enabled with
`override_parent = true`, `Config::merge` maps that name to the override
entry exactly: no array or env merging, default-valued fields of the
override stay at their defaults. -/
theorem claim_C3_override_replaces_wholesale
    (parent child : Config) (name : String) (pe ce : Entry)
    (hnd : (child.entries.map Prod.fst).Nodup)
    (hbase : parent.get_entry name = some pe)
    (hover : child.get_entry name = some ce)
    (hen : ce.enabled = true)
    (hov : ce.override_parent = true) :
    (Config.merge parent child).get_entry name = some ce := by
  simp only [Config.get_entry, Config.merge] at *
  exact merge_fold_override child.entries parent.entries name pe ce hnd hbase
    (entriesLookup_mem hover) hen hov

/-- Concrete inputs instantiating C3: the spec's example, base
`{node: share=[user,pid], bind=[/usr:/usr]}` with override
`{node: override=true, share=[network]}`. -/
def c3base : Config :=
  ⟨[("node", { default_entry with share := ["user", "pid"], bind := ["/usr:/usr"] })]⟩

def c3over : Config :=
  ⟨[("node", { default_entry with override_parent := true, share := ["network"] })]⟩

theorem claim_C3_witness :
    (c3over.entries.map Prod.fst).Nodup ∧
    c3base.get_entry "node" =
      some { default_entry with share := ["user", "pid"], bind := ["/usr:/usr"] } ∧
    c3over.get_entry "node" =
      some { default_entry with override_parent := true, share := ["network"] } ∧
    (Config.merge c3base c3over).get_entry "node" =
      some { default_entry with override_parent := true, share := ["network"] } :=
  ⟨by decide, by decide, by decide,
    claim_C3_override_replaces_wholesale c3base c3over "node"
      { default_entry with share := ["user", "pid"], bind := ["/usr:/usr"] }
      { default_entry with override_parent := true, share := ["network"] }
      (by decide) (by decide) (by decide) (by decide) (by decide)⟩

theorem mergeArray_nodup_cases (p c : List String) :
    (c ≠ [] → (mergeArray p c).Nodup) ∧ (c = [] → mergeArray p c = p) :=
  ⟨fun h => mergeArray_nodup h, fun h => h ▸ mergeArray_empty p⟩

/-- C10: in `Entry::deep_merge`, whenever the child's array for a field is
non-empty the merged array contains no two equal elements (duplicates
internal to the parent's or child's own array are removed too), and
whenever the child's array is empty the parent's array is kept verbatim,
internal duplicates included. -/
theorem claim_C10_nonempty_child_dedups_everything (parent child : Entry) :
    ((child.share ≠ [] → (Entry.deep_merge parent child).share.Nodup) ∧
     (child.share = [] → (Entry.deep_merge parent child).share = parent.share)) ∧
    ((child.bind ≠ [] → (Entry.deep_merge parent child).bind.Nodup) ∧
     (child.bind = [] → (Entry.deep_merge parent child).bind = parent.bind)) ∧
    ((child.ro_bind ≠ [] → (Entry.deep_merge parent child).ro_bind.Nodup) ∧
     (child.ro_bind = [] → (Entry.deep_merge parent child).ro_bind = parent.ro_bind)) ∧
    ((child.dev_bind ≠ [] → (Entry.deep_merge parent child).dev_bind.Nodup) ∧
     (child.dev_bind = [] → (Entry.deep_merge parent child).dev_bind = parent.dev_bind)) ∧
    ((child.bind_try ≠ [] → (Entry.deep_merge parent child).bind_try.Nodup) ∧
     (child.bind_try = [] → (Entry.deep_merge parent child).bind_try = parent.bind_try)) ∧
    ((child.ro_bind_try ≠ [] → (Entry.deep_merge parent child).ro_bind_try.Nodup) ∧
     (child.ro_bind_try = [] →
        (Entry.deep_merge parent child).ro_bind_try = parent.ro_bind_try)) ∧
    ((child.dev_bind_try ≠ [] → (Entry.deep_merge parent child).dev_bind_try.Nodup) ∧
     (child.dev_bind_try = [] →
        (Entry.deep_merge parent child).dev_bind_try = parent.dev_bind_try)) ∧
    ((child.tmpfs ≠ [] → (Entry.deep_merge parent child).tmpfs.Nodup) ∧
     (child.tmpfs = [] → (Entry.deep_merge parent child).tmpfs = parent.tmpfs)) ∧
    ((child.cap ≠ [] → (Entry.deep_merge parent child).cap.Nodup) ∧
     (child.cap = [] → (Entry.deep_merge parent child).cap = parent.cap)) ∧
    ((child.unset_env ≠ [] → (Entry.deep_merge parent child).unset_env.Nodup) ∧
     (child.unset_env = [] →
        (Entry.deep_merge parent child).unset_env = parent.unset_env)) :=
  ⟨mergeArray_nodup_cases parent.share child.share,
    mergeArray_nodup_cases parent.bind child.bind,
    mergeArray_nodup_cases parent.ro_bind child.ro_bind,
    mergeArray_nodup_cases parent.dev_bind child.dev_bind,
    mergeArray_nodup_cases parent.bind_try child.bind_try,
    mergeArray_nodup_cases parent.ro_bind_try child.ro_bind_try,
    mergeArray_nodup_cases parent.dev_bind_try child.dev_bind_try,
    mergeArray_nodup_cases parent.tmpfs child.tmpfs,
    mergeArray_nodup_cases parent.cap child.cap,
    mergeArray_nodup_cases parent.unset_env child.unset_env⟩

theorem claim_C10_witness :
    (["y"] : List String) ≠ [] ∧
    (Entry.deep_merge { default_entry with share := ["x", "x"] }
      { default_entry with share := ["y"] }).share.Nodup :=
  ⟨by decide,
    (claim_C10_nonempty_child_dedups_everything
      { default_entry with share := ["x", "x"] }
      { default_entry with share := ["y"] }).1.1 (by decide)⟩

/-- C4: template flattening (`Config::merge_with_template`) produces, for
every array-valued field, exactly the concatenation of the arrays of the
Model-type entries named in the extends list in listed order (names with no
Model-type entry silently skipped) followed by the command entry's own
array, with no deduplication at this stage. -/
theorem claim_C4_template_concatenation (c : Config) (cmd : Entry) :
    (c.merge_with_template cmd).share =
      ((cmd.extends_.filterMap c.get_model).map Entry.share).flatten ++ cmd.share ∧
    (c.merge_with_template cmd).bind =
      ((cmd.extends_.filterMap c.get_model).map Entry.bind).flatten ++ cmd.bind ∧
    (c.merge_with_template cmd).ro_bind =
      ((cmd.extends_.filterMap c.get_model).map Entry.ro_bind).flatten ++ cmd.ro_bind ∧
    (c.merge_with_template cmd).dev_bind =
      ((cmd.extends_.filterMap c.get_model).map Entry.dev_bind).flatten ++ cmd.dev_bind ∧
    (c.merge_with_template cmd).bind_try =
      ((cmd.extends_.filterMap c.get_model).map Entry.bind_try).flatten ++ cmd.bind_try ∧
    (c.merge_with_template cmd).ro_bind_try =
      ((cmd.extends_.filterMap c.get_model).map Entry.ro_bind_try).flatten ++
        cmd.ro_bind_try ∧
    (c.merge_with_template cmd).dev_bind_try =
      ((cmd.extends_.filterMap c.get_model).map Entry.dev_bind_try).flatten ++
        cmd.dev_bind_try ∧
    (c.merge_with_template cmd).tmpfs =
      ((cmd.extends_.filterMap c.get_model).map Entry.tmpfs).flatten ++ cmd.tmpfs ∧
    (c.merge_with_template cmd).cap =
      ((cmd.extends_.filterMap c.get_model).map Entry.cap).flatten ++ cmd.cap ∧
    (c.merge_with_template cmd).unset_env =
      ((cmd.extends_.filterMap c.get_model).map Entry.unset_env).flatten ++
        cmd.unset_env := by
  obtain ⟨hsh, hbi, hrb, hdb, hbt, hrbt, hdbt, htm, hcp, hue, henv,
    hty, hen, hov, hex, hcd, hdw, hns⟩ :=
    foldl_templateStep_spec c cmd.extends_
      { entry_type := cmd.entry_type
        enabled := cmd.enabled
        override_parent := cmd.override_parent
        extends_ := []
        share := []
        bind := []
        ro_bind := []
        dev_bind := []
        bind_try := []
        ro_bind_try := []
        dev_bind_try := []
        tmpfs := []
        chdir := cmd.chdir
        die_with_parent := cmd.die_with_parent
        new_session := cmd.new_session
        cap := []
        env := []
        unset_env := [] }
  refine ⟨?_, ?_, ?_, ?_, ?_, ?_, ?_, ?_, ?_, ?_⟩
  · show (cmd.extends_.foldl (templateStep c) _).share ++ cmd.share = _
    rw [hsh]; simp
  · show (cmd.extends_.foldl (templateStep c) _).bind ++ cmd.bind = _
    rw [hbi]; simp
  · show (cmd.extends_.foldl (templateStep c) _).ro_bind ++ cmd.ro_bind = _
    rw [hrb]; simp
  · show (cmd.extends_.foldl (templateStep c) _).dev_bind ++ cmd.dev_bind = _
    rw [hdb]; simp
  · show (cmd.extends_.foldl (templateStep c) _).bind_try ++ cmd.bind_try = _
    rw [hbt]; simp
  · show (cmd.extends_.foldl (templateStep c) _).ro_bind_try ++ cmd.ro_bind_try = _
    rw [hrbt]; simp
  · show (cmd.extends_.foldl (templateStep c) _).dev_bind_try ++ cmd.dev_bind_try = _
    rw [hdbt]; simp
  · show (cmd.extends_.foldl (templateStep c) _).tmpfs ++ cmd.tmpfs = _
    rw [htm]; simp
  · show (cmd.extends_.foldl (templateStep c) _).cap ++ cmd.cap = _
    rw [hcp]; simp
  · show (cmd.extends_.foldl (templateStep c) _).unset_env ++ cmd.unset_env = _
    rw [hue]; simp

/-- C5: the env mapping of the flattened result is the successive overlay
of the extended templates' env maps in listed order (a later template
overrides an earlier one for the same key), with the command entry's own
env overlaid last: a key set by the command wins outright, otherwise the
last template in the extends list that sets the key wins. -/
theorem claim_C5_env_overlay (c : Config) (cmd : Entry) (k : String) :
    envLookup (c.merge_with_template cmd).env k =
      Option.or (envLookupLast cmd.env k)
        (overlayLookup ((cmd.extends_.filterMap c.get_model).map Entry.env) k) := by
  obtain ⟨hsh, hbi, hrb, hdb, hbt, hrbt, hdbt, htm, hcp, hue, henv,
    hty, hen, hov, hex, hcd, hdw, hns⟩ :=
    foldl_templateStep_spec c cmd.extends_
      { entry_type := cmd.entry_type
        enabled := cmd.enabled
        override_parent := cmd.override_parent
        extends_ := []
        share := []
        bind := []
        ro_bind := []
        dev_bind := []
        bind_try := []
        ro_bind_try := []
        dev_bind_try := []
        tmpfs := []
        chdir := cmd.chdir
        die_with_parent := cmd.die_with_parent
        new_session := cmd.new_session
        cap := []
        env := []
        unset_env := [] }
  show envLookup (envExtend (cmd.extends_.foldl (templateStep c) _).env cmd.env) k = _
  rw [envLookup_envExtend, henv, envLookup_foldl_envExtend]
  show Option.or _ (Option.or _ (envLookup [] k)) = _
  rw [show envLookup [] k = none from rfl, Option.or_none]

/-- C7: a document whose `extends` field is the single string `s`
normalizes to the same one-element sequence as one whose `extends` field is
the sequence `[s]`, and an absent `extends` field normalizes to the empty
sequence. -/
theorem claim_C7_extends_normalization (s : String) :
    decodeExtendsField (some (YamlValue.str s)) = some [s] ∧
    decodeExtendsField (some (YamlValue.seq [YamlValue.str s])) = some [s] ∧
    decodeExtendsField none = some [] :=
  ⟨rfl, rfl, rfl⟩

/-- C6 counterexample: a configuration whose single entry is enabled with
`override_parent = false` but carries an internal duplicate in its `share`
array is NOT a fixed point of `Config::merge` with itself: the deep merge
deduplicates the array, so `merge(C, C) ≠ C`. -/
theorem claim_C6_counterexample :
    Config.merge ⟨[("node", { default_entry with share := ["a", "a"] })]⟩
        ⟨[("node", { default_entry with share := ["a", "a"] })]⟩ ≠
      ⟨[("node", { default_entry with share := ["a", "a"] })]⟩ := by
  decide

/-- C6 (amended): for every well-formed configuration (unique entry names
and env keys, as map keys are) in which every entry has `enabled = true`,
`override_parent = false` and every array-valued field free of duplicate
elements, aggregating the configuration with itself yields it back:
`merge(C, C) = C`. -/
theorem claim_C6_amended_self_merge_idempotent (C : Config)
    (hwf : C.wfKeys)
    (h : ∀ p ∈ C.entries,
      p.2.enabled = true ∧ p.2.override_parent = false ∧ p.2.arraysNodup) :
    Config.merge C C = C := by
  obtain ⟨hnd, henv⟩ := hwf
  unfold Config.merge
  have hfold : C.entries.foldl mergeStep C.entries = C.entries := by
    apply foldl_fixed
    intro nc hnc
    obtain ⟨hen, hov, harr⟩ := h nc hnc
    have hlk : entriesLookup C.entries nc.1 = some nc.2 :=
      entriesLookup_of_mem_nodup hnd hnc
    unfold mergeStep
    rw [hen, hlk, hov]
    simp only [Bool.not_true, Bool.false_and, if_false, Option.isSome_some,
      Bool.and_false, Bool.false_eq_true]
    rw [Entry.deep_merge_self nc.2 harr (henv nc hnc)]
    exact insertEntry_lookup_self _ _ _ hlk
  rw [hfold]

/-- Concrete input instantiating the amended C6: one enabled,
non-overriding entry with duplicate-free arrays and env. -/
def c6cfg : Config :=
  ⟨[("node", { default_entry with share := ["user"], env := [("K", "v")] })]⟩

theorem claim_C6_witness :
    c6cfg.wfKeys ∧
    (∀ p ∈ c6cfg.entries,
      p.2.enabled = true ∧ p.2.override_parent = false ∧ p.2.arraysNodup) ∧
    Config.merge c6cfg c6cfg = c6cfg :=
  ⟨by decide, by decide,
    claim_C6_amended_self_merge_idempotent c6cfg (by decide) (by decide)⟩

/-- C8: the loader returns an absent configuration iff neither source file
exists; if an existing file fails to parse, loading fails with a
`ParseError` carrying that file's path (the user file is tried first;
a local parse failure surfaces whenever the user file is absent or loads
cleanly), never an absent or partial configuration. -/
theorem claim_C8_load_absent_iff_no_files (fsRead : String → Option String)
    (parseYaml : String → Option Config) (user_config local_config : Option String) :
    (ConfigLoader.load fsRead parseYaml user_config local_config = Except.ok none ↔
      user_config = none ∧ local_config = none) ∧
    (∀ p text, user_config = some p → fsRead p = some text → parseYaml text = none →
      ConfigLoader.load fsRead parseYaml user_config local_config =
        Except.error (LoadError.parseError p)) ∧
    (∀ p text, local_config = some p → fsRead p = some text → parseYaml text = none →
      (user_config = none →
        ConfigLoader.load fsRead parseYaml user_config local_config =
          Except.error (LoadError.parseError p)) ∧
      (∀ u cu, user_config = some u →
        Config.from_file fsRead parseYaml u = Except.ok cu →
        ConfigLoader.load fsRead parseYaml user_config local_config =
          Except.error (LoadError.parseError p))) := by
  refine ⟨⟨?_, ?_⟩, ?_, ?_⟩
  · intro h
    cases user_config with
    | none =>
      cases local_config with
      | none => exact ⟨rfl, rfl⟩
      | some l =>
        exfalso
        simp only [ConfigLoader.load] at h
        cases hf : Config.from_file fsRead parseYaml l with
        | error e => rw [hf] at h; simp at h
        | ok cl => rw [hf] at h; simp at h
    | some u =>
      exfalso
      cases local_config with
      | none =>
        simp only [ConfigLoader.load] at h
        cases hf : Config.from_file fsRead parseYaml u with
        | error e => rw [hf] at h; simp at h
        | ok cu => rw [hf] at h; simp at h
      | some l =>
        simp only [ConfigLoader.load] at h
        cases hf : Config.from_file fsRead parseYaml u with
        | error e => rw [hf] at h; simp at h
        | ok cu =>
          rw [hf] at h
          cases hg : Config.from_file fsRead parseYaml l with
          | error e => rw [hg] at h; simp at h
          | ok cl => rw [hg] at h; simp at h
  · rintro ⟨hu, hl⟩
    subst hu
    subst hl
    rfl
  · intro p text hp hf hpn
    have hff : Config.from_file fsRead parseYaml p =
        Except.error (LoadError.parseError p) := by
      unfold Config.from_file
      rw [hf]
      simp [hpn]
    subst hp
    cases local_config with
    | none => simp only [ConfigLoader.load]; rw [hff]
    | some l => simp only [ConfigLoader.load]; rw [hff]
  · intro p text hp hf hpn
    have hff : Config.from_file fsRead parseYaml p =
        Except.error (LoadError.parseError p) := by
      unfold Config.from_file
      rw [hf]
      simp [hpn]
    subst hp
    constructor
    · intro hu
      subst hu
      simp only [ConfigLoader.load]
      rw [hff]
    · intro u cu hu huok
      subst hu
      simp only [ConfigLoader.load]
      rw [huok, hff]

/-- Concrete filesystem instantiating C8: one user config file whose
content exists but does not parse. -/
def c8fs : String → Option String :=
  fun p => if p = "user.yaml" then some "bad" else none

def c8parse : String → Option Config := fun _ => none

theorem claim_C8_witness :
    (some "user.yaml" : Option String) = some "user.yaml" ∧
    c8fs "user.yaml" = some "bad" ∧
    c8parse "bad" = none ∧
    ConfigLoader.load c8fs c8parse (some "user.yaml") none =
      Except.error (LoadError.parseError "user.yaml") :=
  ⟨rfl, by decide, rfl,
    (claim_C8_load_absent_iff_no_files c8fs c8parse (some "user.yaml") none).2.1
      "user.yaml" "bad" rfl (by decide) rfl⟩

/-- C9: the local-config search terminates and is fully characterized: for
every probe and starting directory (a list of path components), the walk
either returns the deepest ancestor-or-self directory (a prefix
`start.take n`) containing the config file, every strictly deeper
ancestor-or-self lacking it, or returns nothing and no ancestor-or-self
(including the root `[]`) contains it. -/
theorem claim_C9_local_search_terminates (hasConfig : List String → Bool)
    (start : List String) :
    (∀ d, ConfigLoader.get_local_config_dir hasConfig start = some d →
      hasConfig d = true ∧
      ∃ n, n ≤ start.length ∧ d = start.take n ∧
        ∀ m, n < m → m ≤ start.length → hasConfig (start.take m) = false) ∧
    (ConfigLoader.get_local_config_dir hasConfig start = none →
      ∀ n, n ≤ start.length → hasConfig (start.take n) = false) :=
  get_local_config_dir_bounded hasConfig start.length start (Nat.le_refl _)

/-- Concrete probe instantiating C9: only directory `[a]` holds a config
file; the walk started at `[a, b]` finds it. -/
def c9probe : List String → Bool := fun d => decide (d = ["a"])

theorem claim_C9_witness :
    ConfigLoader.get_local_config_dir c9probe ["a", "b"] = some ["a"] ∧
    c9probe ["a"] = true := by
  have hres : ConfigLoader.get_local_config_dir c9probe ["a", "b"] = some ["a"] := by
    simp [ConfigLoader.get_local_config_dir, c9probe]
  exact ⟨hres, ((claim_C9_local_search_terminates c9probe ["a", "b"]).1 ["a"] hres).1⟩

end Sheld
